import Mathlib

/-!
Verification development for `extract.py` (quest-extractor): a PDF exam
extractor that detects purple marker rectangles, extracts them as images,
splits two-column pages, segments numbered questions, parses lettered
alternatives, and matches marker images back to questions.

The Python source is shallowly embedded here:
* strings are `List Char`; Python regex scans are modelled as explicit
  left-to-right scanning functions that mirror the regex engine's
  leftmost-match / greedy / lazy behaviour for each concrete pattern;
* floats are modelled as exact rationals `ℚ` (standard shallow-embedding
  choice; float rounding is not modelled);
* the PDF collaborators (pdfplumber crop/extract, PyMuPDF rendering) are
  modelled as abstract data carried by a `Page` structure, and fallible
  external effects (document save, output write) as `Except` outcomes.
-/

/-! ## Character helpers (Python `\s`, `\d`, `[ \t]`, `str.strip`) -/

/-- Python ASCII whitespace class `\s`: space, tab, newline, carriage
return, vertical tab, form feed. -/
def isPyWs (c : Char) : Bool :=
  c = ' ' || c = '\t' || c = '\n' || c = '\r' || c = '\x0b' || c = '\x0c'

/-- Python `\d` (ASCII digits). -/
def isAsciiDigit (c : Char) : Bool :=
  '0' ≤ c && c ≤ '9'

/-- Python `[ \t]` used by `re.sub(r'[ \t]+', ' ', s)`. -/
def isSpaceTab (c : Char) : Bool :=
  c = ' ' || c = '\t'

/-- `int(...)` on a digit string. -/
def digitsToNat (ds : List Char) : Nat :=
  ds.foldl (fun n c => 10 * n + (c.toNat - '0'.toNat)) 0

/-- Drop trailing Python whitespace (the right half of `str.strip()`). -/
def dropTrailWs (l : List Char) : List Char :=
  (l.reverse.dropWhile isPyWs).reverse

/-- Python `str.strip()`. -/
def stripChars (l : List Char) : List Char :=
  dropTrailWs (l.dropWhile isPyWs)

/-- `pat.isPrefixOf l` as a plain boolean scan (used to model substring
search in regex embeddings). -/
def leadsWith : List Char → List Char → Bool
  | [], _ => true
  | _ :: _, [] => false
  | p :: ps, c :: rest => p = c && leadsWith ps rest

/-- Boolean substring test: `pat` occurs contiguously somewhere in `l`. -/
def containsSeq (pat : List Char) : List Char → Bool
  | [] => pat.isEmpty
  | c :: rest => leadsWith pat (c :: rest) || containsSeq pat rest

/-! ## `normalize_keep_lines` (extract.py lines 277-284)

The five `re.sub`/`replace` rewrites, in source order, each modelled as a
single left-to-right pass (which is what `re.sub` performs for these
patterns). -/

/-- `s.replace("\r\n", "\n").replace("\r", "\n")`: the two sequential
replaces fuse into one left-to-right pass since the second only rewrites
`\r` characters the first left behind. -/
def replace_crlf : List Char → List Char
  | [] => []
  | '\r' :: '\n' :: rest => '\n' :: replace_crlf rest
  | '\r' :: rest => '\n' :: replace_crlf rest
  | c :: rest => c :: replace_crlf rest

/-- `re.sub(r'-\n', '', s)`: delete hyphen-newline pairs, scanning left to
right without rescanning the output (as `re.sub` does). -/
def remove_hyphen_newline : List Char → List Char
  | [] => []
  | '-' :: '\n' :: rest => remove_hyphen_newline rest
  | c :: rest => c :: remove_hyphen_newline rest

/-- `re.sub(r'[ \t]+', ' ', s)`: the flag records being inside a space/tab
run whose single `' '` output was already emitted. -/
def collapse_spaces_aux : Bool → List Char → List Char
  | _, [] => []
  | inRun, c :: rest =>
    if isSpaceTab c then
      (if inRun then [] else [' ']) ++ collapse_spaces_aux true rest
    else c :: collapse_spaces_aux false rest

/-- `re.sub(r'[ \t]+', ' ', s)`. -/
def collapse_spaces (l : List Char) : List Char :=
  collapse_spaces_aux false l

/-- `re.sub(r'\n{3,}', '\n\n', s)`: the flag records being inside a
newline run of length ≥ 3 whose `"\n\n"` output was already emitted; at a
fresh newline, a run of length ≥ 3 (the head plus two more by
`leadsWith`) emits exactly two newlines, shorter runs are copied. -/
def collapse_newlines_aux : Bool → List Char → List Char
  | _, [] => []
  | inRun, c :: rest =>
    if c = '\n' then
      if inRun then collapse_newlines_aux true rest
      else if leadsWith ['\n', '\n'] rest then
        '\n' :: '\n' :: collapse_newlines_aux true rest
      else '\n' :: collapse_newlines_aux false rest
    else c :: collapse_newlines_aux false rest

/-- `re.sub(r'\n{3,}', '\n\n', s)`. -/
def collapse_newlines (l : List Char) : List Char :=
  collapse_newlines_aux false l

/-- The lookahead `(?=\s|\n|$)` of the `ular` artifact pattern: next
character is whitespace, or end of text. -/
def ruLookahead : List Char → Bool
  | [] => true
  | c :: _ => isPyWs c

/-- `re.sub(r'(?<=\s)ular(?=\s|\n|$)', '', s)`. The boolean argument is
the lookbehind state: whether the previous character is whitespace (false
at the start of the string, where the lookbehind fails). After a removal,
scanning resumes after the removed `r` (the inner match realizes
`rest.drop 3` structurally; its fallback branch is unreachable because
the guard's `leadsWith` forces at least three more characters), so the
lookbehind state resets to false, exactly as `re.sub` rescans from the
match end. -/
def remove_ular_aux : Bool → List Char → List Char
  | _, [] => []
  | pw, c :: rest =>
    if c = 'u' && pw && leadsWith ['l', 'a', 'r'] rest && ruLookahead (rest.drop 3) then
      match rest with
      | _ :: _ :: _ :: r2 => remove_ular_aux false r2
      | _ => []
    else c :: remove_ular_aux (isPyWs c) rest

/-- `normalize_keep_lines` (extract.py lines 277-284): the five rewrites
in source order followed by `.strip()`. -/
def normalize_keep_lines (s : List Char) : List Char :=
  stripChars (remove_ular_aux false (collapse_newlines (collapse_spaces
    (remove_hyphen_newline (replace_crlf s)))))

/-! ## Color classifier (extract.py lines 20-32) -/

/-- The squared Euclidean distance `rgb_distance(c1, c2) ** 2`: the source
computes `sum((a-b)**2 for a, b in zip(color1, color2)) ** 0.5`; we carry
the square to stay inside `ℚ` (the comparison below against the squared
threshold is equivalent since both sides are nonnegative). -/
def rgb_distance_sq (c1 c2 : List ℚ) : ℚ :=
  (List.zipWith (fun a b => (a - b) ^ 2) c1 c2).sum

/-- The reference purple `#9c28b0` as normalized RGB:
`(0x9c/255, 0x28/255, 0xb0/255)`. -/
def purpleTarget : List ℚ :=
  [156 / 255, 40 / 255, 176 / 255]

/-- `is_purple_color(color)` (extract.py lines 24-32) with the default
`threshold=0.15`: `None`/short colors are rejected, otherwise the
Euclidean distance of the first three components to the reference is
compared strictly against the threshold (here in squared form:
`d < 0.15` iff `d² < 0.15²` for `d ≥ 0`). -/
def is_purple_color (color : Option (List ℚ)) : Bool :=
  match color with
  | none => false
  | some c =>
    if c.length < 3 then false
    else decide (rgb_distance_sq (c.take 3) purpleTarget < (15 / 100) ^ 2)

/-! ## Question segmentation: `split_questions` (extract.py lines 286-297)

Pattern `(?m)^\s*(\d+)\.\s*` over the whole normalized text, scanned left
to right by `finditer`. `^` (MULTILINE) matches at position 0 or right
after a `'\n'`; both `\s*` are greedy (and, being disjoint from `\d` and
`.`, need no backtracking). Each question body runs from one match's end
to the next match's start. -/

/-- Greedy `\s*`, additionally tracking whether the last consumed
character was `'\n'` (the MULTILINE line-start state for the character
that follows). The flag argument is the state on entry. -/
def skipWsNl : Bool → List Char → Bool × List Char
  | f, [] => (f, [])
  | f, c :: rest => if isPyWs c then skipWsNl (c = '\n') rest else (f, c :: rest)

/-- Attempt `^\s*(\d+)\.\s*` at the current position. `ls` says whether
`^` matches here (start of text or just after `'\n'`). On success,
returns the parsed number, the line-start state after the match, and the
suffix after the match end. -/
def tryQ (ls : Bool) (l : List Char) : Option (Nat × Bool × List Char) :=
  if !ls then none
  else
    let s1 := skipWsNl ls l
    let ds := s1.2.takeWhile isAsciiDigit
    if ds.isEmpty then none
    else
      match s1.2.drop ds.length with
      | '.' :: r2 =>
        let s2 := skipWsNl false r2
        some (digitsToNat ds, s2.1, s2.2)
      | _ => none

/-- Leftmost match of `(?m)^\s*(\d+)\.\s*` at or after the current
position: returns the characters walked before the match start, the
number, the line-start state after the match, and the suffix after the
match end. -/
def findFirstQ (ls : Bool) : List Char → Option (List Char × Nat × Bool × List Char)
  | [] => none
  | c :: rest =>
    match tryQ ls (c :: rest) with
    | some (n, ls2, r) => some ([], n, ls2, r)
    | none => (findFirstQ (c = '\n') rest).map (fun x => (c :: x.1, x.2))

/-- The `for i, m in enumerate(matches)` loop of `split_questions`: the
current question's body ends at the start of the next match (or at end of
text), and is `.strip()`ped. Fuel bounds the number of matches (called
with more fuel than characters, it never runs out). -/
def questionLoop : Nat → Nat → Bool → List Char → List (Nat × List Char)
  | 0, n, _, rest => [(n, stripChars rest)]
  | fuel + 1, n, ls, rest =>
    match findFirstQ ls rest with
    | none => [(n, stripChars rest)]
    | some (pre, n2, ls2, r2) => (n, stripChars pre) :: questionLoop fuel n2 ls2 r2

/-- `split_questions(full_text)` (extract.py lines 286-297). Text before
the first match is discarded; no match at all yields `[]`. -/
def split_questions (t : List Char) : List (Nat × List Char) :=
  match findFirstQ true t with
  | none => []
  | some (_, n, ls, rest) => questionLoop (t.length + 1) n ls rest

/-! ## Alternative parsing: `parse_question_block` (extract.py lines 338-356)

Pattern `(?i)(?:(?<=^)|(?<=[\s\.]))([a-fA-F])\)\s*(.*?)(?=(?:[\s\.][a-fA-F]\)|$))`
with `re.DOTALL`. A match needs: lookbehind (start of text, or previous
character in `[\s.]`), a letter `a`-`f` (either case), `')'`, greedy
`\s*`, then the lazy value group runs to the earliest position where the
lookahead holds (`[\s.]` + letter + `')'` ahead, or `$`: end of text or
just before a final `'\n'`). -/

/-- A letter `[a-fA-F]`. -/
def isOptLetter (c : Char) : Bool :=
  ('a' ≤ c && c ≤ 'f') || ('A' ≤ c && c ≤ 'F')

/-- The lookbehind class `[\s\.]`. -/
def isSepDot (c : Char) : Bool :=
  isPyWs c || c = '.'

/-- The lookahead `(?=(?:[\s\.][a-fA-F]\)|$))`: separator + letter +
`')'` ahead, or end of text, or only a final `'\n'` left (`$` without
MULTILINE also matches just before a trailing newline). -/
def altStop : List Char → Bool
  | [] => true
  | ['\n'] => true
  | a :: b :: c :: _ => isSepDot a && isOptLetter b && c = ')'
  | _ => false

/-- Greedy `\s*` after `')'`; the flag records whether any whitespace was
consumed (it then serves as the `[\s.]` lookbehind for the next match). -/
def skipWsFlag : Bool → List Char → Bool × List Char
  | f, [] => (f, [])
  | f, c :: rest => if isPyWs c then skipWsFlag true rest else (f, c :: rest)

/-- The lazy value group `(.*?)` (DOTALL): consume characters until the
earliest position where `altStop` holds. Returns the value, the
`[\s.]`-lookbehind state at the stop position, and the suffix there. -/
def collectVal (pv : Bool) : List Char → List Char × Bool × List Char
  | [] => ([], pv, [])
  | c :: rest =>
    if altStop (c :: rest) then ([], pv, c :: rest)
    else
      let r := collectVal (isSepDot c) rest
      (c :: r.1, r.2.1, r.2.2)

/-- Leftmost match of the alternative pattern at or after the current
position. `pOk` is the lookbehind state (true at position 0). Returns the
characters before the match start (the stem prefix for the first match),
the letter, the raw value, the lookbehind state after the match, and the
suffix after the match end. -/
def findFirstAlt (pOk : Bool) : List Char → Option (List Char × Char × List Char × Bool × List Char)
  | c :: ')' :: rest2 =>
    if pOk && isOptLetter c then
      let s := skipWsFlag false rest2
      let v := collectVal s.1 s.2
      some ([], c, v.1, v.2.1, v.2.2)
    else (findFirstAlt (isSepDot c) (')' :: rest2)).map (fun x => (c :: x.1, x.2))
  | c :: rest => (findFirstAlt (isSepDot c) rest).map (fun x => (c :: x.1, x.2))
  | [] => none

/-- The remaining matches after the first (the rest of `findall`), with
fuel bounding the match count. -/
def findAltsRest : Nat → Bool → List Char → List (Char × List Char)
  | 0, _, _ => []
  | fuel + 1, pOk, l =>
    match findFirstAlt pOk l with
    | none => []
    | some (_, letter, v, p2, rest) => (letter, v) :: findAltsRest fuel p2 rest

/-- Python `str.lower()` on ASCII letters. -/
def lowerChar (c : Char) : Char :=
  if 'A' ≤ c && c ≤ 'Z' then Char.ofNat (c.toNat + 32) else c

/-- Python `dict` assignment `d[k] = v` on an association list: replace
in place if the key exists, else append. -/
def dictInsert (m : List (List Char × List Char)) (k v : List Char) : List (List Char × List Char) :=
  match m with
  | [] => [(k, v)]
  | (k0, v0) :: rest =>
    if k0 = k then (k0, v) :: rest else (k0, v0) :: dictInsert rest k v

/-- `parse_question_block(qtext)` (extract.py lines 338-356): the stem is
the (stripped) text before the first match (the whole stripped text if
there is none); the alternatives dict maps `"alternativa_" + letter
.lower()` to the stripped value, last occurrence of a letter winning. -/
def parse_question_block (qtext : List Char) : List Char × List (List Char × List Char) :=
  match findFirstAlt true qtext with
  | none => (stripChars qtext, [])
  | some (pre, letter, v, p2, rest) =>
    let alts := (letter, v) :: findAltsRest (qtext.length + 1) p2 rest
    (stripChars pre,
      alts.foldl
        (fun m lv => dictInsert m ("alternativa_".toList ++ [lowerChar lv.1]) (stripChars lv.2))
        [])

/-! ## `wrap_html_paragraphs` (extract.py lines 358-361) -/

/-- Python `text.split("\n\n")`: split on non-overlapping double
newlines, left to right. -/
def splitOnNN : List Char → List (List Char)
  | [] => [[]]
  | '\n' :: '\n' :: rest => [] :: splitOnNN rest
  | c :: rest =>
    match splitOnNN rest with
    | h :: t => (c :: h) :: t
    | [] => [[c]]

/-- `wrap_html_paragraphs(text)`: strip each block, drop empty ones, wrap
each in `<p>...</p>` and concatenate. -/
def wrap_html_paragraphs (t : List Char) : List Char :=
  let parts := ((splitOnNN t).map stripChars).filter (fun p => !p.isEmpty)
  (parts.map (fun p => "<p>".toList ++ p ++ "</p>".toList)).flatten

/-! ## Page model and `extract_text_columns_with_positions`
(extract.py lines 165-275)

The pdfplumber collaborator is abstracted: a `Page` carries its
dimensions, its ruling line segments, and the crop results
(`page.crop(bbox).extract_text()` / `.extract_words()`) as functions of
the bounding box. The `page.lines` / `page.objects["lines"]` access
fallback (lines 191-197) yields the same segment list either way and is
modelled by the single `lines` field. -/

/-- A crop bounding box `(x0, top, x1, bottom)`. -/
structure Bbox where
  x0 : ℚ
  y0 : ℚ
  x1 : ℚ
  y1 : ℚ
deriving DecidableEq

/-- A pdfplumber word token: its text and its `"top"` coordinate
(`word.get("top", 0)` defaults to 0 when absent). -/
structure Word where
  text : List Char
  top : Option ℚ
deriving DecidableEq

/-- A pdfplumber line segment; `x0`/`x1` may be absent (the source
skips such segments), `y0` defaults to 0 and `y1` to the page height. -/
structure Line where
  x0 : Option ℚ
  x1 : Option ℚ
  y0 : Option ℚ
  y1 : Option ℚ
deriving DecidableEq

/-- An abstract pdfplumber page. -/
structure Page where
  width : ℚ
  height : ℚ
  lines : List Line
  extractText : Bbox → List Char
  extractWords : Bbox → List Word

/-- Column hint: `"left"` / `"right"` in the source. -/
inductive Col where
  | left : Col
  | right : Col
deriving DecidableEq

/-- The candidate central vertical rulings of a page (extract.py lines
199-211): skip segments without `x0`/`x1`; skip the near-horizontal
footer rule in the bottom 5%; keep `x0` when the segment is near-vertical
(`|x0 - x1| < 4`), spans more than 30% of the page height, and sits in
the middle half of the page width. -/
def lineCandidates (p : Page) : List ℚ :=
  p.lines.filterMap (fun ln =>
    match ln.x0, ln.x1 with
    | some x0, some x1 =>
      let y0 := ln.y0.getD 0
      let y1 := ln.y1.getD p.height
      if |y1 - y0| < 2 ∧ y0 > p.height * (95 / 100) then none
      else if |x0 - x1| < 4 ∧ y1 - y0 > (3 / 10) * p.height ∧
          ((25 / 100) * p.width < x0 ∧ x0 < (75 / 100) * p.width) then some x0
      else none
    | _, _ => none)

/-- `sorted(candidates, key=lambda x: abs(x - w/2))[0]`: Python's sort is
stable, so this is the first candidate (in list order) with minimal
distance to the midpoint; a strict-improvement fold computes exactly
that. -/
def argminMid (mid : ℚ) : List ℚ → Option ℚ
  | [] => none
  | x :: rest => some (rest.foldl (fun best c => if |c - mid| < |best - mid| then c else best) x)

/-- The split abscissa chosen for a page (extract.py lines 213-218):
the candidate closest to the midpoint, else the exact midpoint. -/
def pageSplit0 (p : Page) : ℚ :=
  match argminMid (p.width / 2) (lineCandidates p) with
  | some x => x
  | none => p.width / 2

/-- `gap = max(4.0, w * 0.01)` (extract.py line 220). -/
def pageGap (p : Page) : ℚ :=
  max 4 (p.width * (1 / 100))

/-- First-attempt left crop `(0, 0, max(0, split_x - gap), h)`
(extract.py line 221). -/
def firstLeftBbox (p : Page) : Bbox :=
  ⟨0, 0, max 0 (pageSplit0 p - pageGap p), p.height⟩

/-- First-attempt right crop `(min(w, split_x + gap), 0, w, h)`
(extract.py line 222). -/
def firstRightBbox (p : Page) : Bbox :=
  ⟨min p.width (pageSplit0 p + pageGap p), 0, p.width, p.height⟩

/-- Retry left crop `(0, 0, split_x - gap, h)` with `split_x = w / 2.0`
(extract.py line 234); note the retry does not clamp. -/
def retryLeftBbox (p : Page) : Bbox :=
  ⟨0, 0, p.width / 2 - pageGap p, p.height⟩

/-- Retry right crop `(split_x + gap, 0, w, h)` with `split_x = w / 2.0`
(extract.py line 235). -/
def retryRightBbox (p : Page) : Bbox :=
  ⟨p.width / 2 + pageGap p, 0, p.width, p.height⟩

/-- The four extraction results of one page. -/
structure PageResult where
  leftText : List Char
  rightText : List Char
  leftWords : List Word
  rightWords : List Word
deriving DecidableEq

/-- Per-page extraction (extract.py lines 199-239): extract text and
words on both sides of the chosen split; if either side's text strips to
empty and the split was not already the exact midpoint, retry exactly
once at the exact midpoint and keep whatever that yields. -/
def processPage (p : Page) : PageResult :=
  let lt0 := p.extractText (firstLeftBbox p)
  let rt0 := p.extractText (firstRightBbox p)
  let lw0 := p.extractWords (firstLeftBbox p)
  let rw0 := p.extractWords (firstRightBbox p)
  if ((stripChars lt0).isEmpty || (stripChars rt0).isEmpty) && pageSplit0 p ≠ p.width / 2 then
    ⟨p.extractText (retryLeftBbox p), p.extractText (retryRightBbox p),
     p.extractWords (retryLeftBbox p), p.extractWords (retryRightBbox p)⟩
  else ⟨lt0, rt0, lw0, rw0⟩

/-- A recorded question position (extract.py lines 250-254): page number
(1-based), `"y_start"` = word top, column. -/
structure QPos where
  page : Nat
  y_start : ℚ
  col : Col
deriving DecidableEq

/-- The `question_positions` dict as an association list. -/
abbrev PosMap := List (Nat × QPos)

/-- Python dict assignment `question_positions[q] = rec`. -/
def posInsert (m : PosMap) (q : Nat) (r : QPos) : PosMap :=
  match m with
  | [] => [(q, r)]
  | (k, v) :: rest => if k = q then (k, r) :: rest else (k, v) :: posInsert rest q r

/-- Python dict lookup `q in question_positions` / `question_positions[q]`. -/
def posLookup (m : PosMap) (q : Nat) : Option QPos :=
  match m with
  | [] => none
  | (k, v) :: rest => if k = q then some v else posLookup rest q

/-- `re.compile(r'^\s*(\d+)\.\s').match(text)` on a word token
(extract.py lines 242-248): optional leading whitespace, digits, a
period, then one whitespace character. -/
def qnumOfWord (t : List Char) : Option Nat :=
  let t1 := t.dropWhile isPyWs
  let ds := t1.takeWhile isAsciiDigit
  if ds.isEmpty then none
  else
    match t1.drop ds.length with
    | '.' :: c :: _ => if isPyWs c then some (digitsToNat ds) else none
    | _ => none

/-- One column's word loop (extract.py lines 245-254 and 257-266):
matching words overwrite the dict entry for their number. -/
def foldWords (i : Nat) (c : Col) (ws : List Word) (m : PosMap) : PosMap :=
  ws.foldl
    (fun m w =>
      match qnumOfWord w.text with
      | some q => posInsert m q ⟨i, w.top.getD 0, c⟩
      | none => m)
    m

/-- The per-page loop of `extract_text_columns_with_positions`
(extract.py lines 185-269), carried over the (1-based) page number:
process the page, fold the left then the right words into the position
dict, and append the page text
`(left_text.strip() + "\n" + right_text.strip()).strip()`. -/
def tcpLoop : Nat → List Page → List (List Char) × PosMap → List (List Char) × PosMap
  | _, [], acc => acc
  | i, p :: rest, (texts, m) =>
    let r := processPage p
    let m1 := foldWords i Col.left r.leftWords m
    let m2 := foldWords i Col.right r.rightWords m1
    let ptext := stripChars (stripChars r.leftText ++ '\n' :: stripChars r.rightText)
    tcpLoop (i + 1) rest (texts ++ [ptext], m2)

/-- `extract_text_columns_with_positions(path)` (extract.py lines
165-275): read at most the first two pages (`limit = min(total, 2)`),
then join the non-empty page texts with `"\n\n"`. -/
def extract_text_columns_with_positions (pages : List Page) : List Char × PosMap :=
  let limit := min pages.length 2
  let res := tcpLoop 1 (pages.take limit) ([], [])
  (List.intercalate ['\n', '\n'] (res.1.filter (fun t => !t.isEmpty)), res.2)

/-! ## Marker images and `match_image_to_question`
(extract.py lines 130-136 and 299-336) -/

/-- One extracted purple-rectangle image record (extract.py lines
130-136). The base64 payload is an opaque string. -/
structure PurpleImage where
  page : Nat
  rect : Bbox
  b64 : List Char
  y_center : ℚ
  col_hint : Col
deriving DecidableEq

/-- The first matching candidate of `match_image_to_question`'s `for`
loop, as an `Option` over the filtered same-page same-column list. -/
def matchRegion (q : Nat) (pos : PosMap) (imgs : List PurpleImage) : Option PurpleImage :=
  match posLookup pos q with
  | none => none
  | some r =>
    let candidates := imgs.filter (fun im => decide (im.page = r.page ∧ im.col_hint = r.col))
    candidates.find? (fun im =>
      decide (r.y_start - 50 ≤ im.y_center) && decide (im.y_center ≤ r.y_start + 100 + 50))

/-- `match_image_to_question(q_num, question_positions, purple_images)`
(extract.py lines 299-336): no indexed position → `""`; otherwise the
base64 of the first same-page same-column region whose vertical center
lies in `[y_start - 50, y_start + 100 + 50]`, else `""`. -/
def match_image_to_question (q : Nat) (pos : PosMap) (imgs : List PurpleImage) : List Char :=
  match matchRegion q pos imgs with
  | some im => im.b64
  | none => []

/-! ## Output assembly (extract.py lines 384-405) -/

/-- One output record (extract.py lines 399-405). -/
structure Record where
  numero_questao : Nat
  enunciado : List Char
  imagem : List Char
  alternativas : List (List Char × List Char)
  alternativa_correta : List Char
deriving DecidableEq

/-- The record-assembly loop of `main` (extract.py lines 387-405): parse
each question block, match an image, wrap stem and alternative values in
paragraph markup. -/
def buildOutput (qlist : List (Nat × List Char)) (pos : PosMap) (imgs : List PurpleImage) :
    List Record :=
  qlist.map (fun nq =>
    let parsed := parse_question_block nq.2
    let image_b64 := match_image_to_question nq.1 pos imgs
    { numero_questao := nq.1
      enunciado := wrap_html_paragraphs parsed.1
      imagem := image_b64
      alternativas := parsed.2.map (fun kv => (kv.1, wrap_html_paragraphs kv.2))
      alternativa_correta := [] })

/-! ## Control-flow model of `extract_and_remove_purple_rectangles` and
`main` (extract.py lines 34-163 and 363-426)

Only the effect structure matters for the cleanup claim: which external
calls can raise, and where the temporary file exists. The page-processing
phase (PyMuPDF drawing scan and rasterization), `doc.save`, `doc.close`
and the whole `try`-block body are external effects whose outcomes are
supplied as `Except` values; `os.unlink` is modelled as reliable. -/

/-- Outcomes of the external calls inside
`extract_and_remove_purple_rectangles`. -/
structure ExtractEnv where
  pagesResult : Except Nat (List PurpleImage)
  saveResult : Except Nat Unit
  closeResult : Except Nat Unit

/-- Run of `extract_and_remove_purple_rectangles` (extract.py lines
34-163): the drawing/rasterizing loop runs first; `tempfile.mkstemp`
then creates the temporary file (line 154), after which `doc.save` and
`doc.close` run. Returns the outcome and whether the temporary file
exists when the function exits (normally or by exception). -/
def runExtract (env : ExtractEnv) : Except Nat (List PurpleImage) × Bool :=
  match env.pagesResult with
  | Except.error e => (Except.error e, false)
  | Except.ok imgs =>
    match env.saveResult with
    | Except.error e => (Except.error e, true)
    | Except.ok _ =>
      match env.closeResult with
      | Except.error e => (Except.error e, true)
      | Except.ok _ => (Except.ok imgs, true)

/-- Outcomes of the external effects of `main`. -/
structure MainEnv where
  extractEnv : ExtractEnv
  bodyResult : Except Nat Unit

/-- Run of `main(argv)` (extract.py lines 363-426): short argv or a
missing input file return 1 before any temporary file exists; then
`extract_and_remove_purple_rectangles` runs outside the `try`, and the
`try ... finally os.unlink` wraps only the remaining pipeline. Returns
the outcome (normal return value or propagated exception) and whether
the temporary file exists at process exit. -/
def runMain (argcOk fileOk : Bool) (env : MainEnv) : Except Nat Nat × Bool :=
  if !argcOk then (Except.ok 1, false)
  else if !fileOk then (Except.ok 1, false)
  else
    match runExtract env.extractEnv with
    | (Except.error e, temp) => (Except.error e, temp)
    | (Except.ok _, _) =>
      match env.bodyResult with
      | Except.ok _ => (Except.ok 0, false)
      | Except.error e => (Except.error e, false)

/-- No match of the `ular` pattern anywhere when scanning with lookbehind
state `pw`: the one-character-advance scan invariant satisfied exactly
when `remove_ular_aux` removes nothing. -/
def ruClean : Bool → List Char → Bool
  | _, [] => true
  | pw, c :: rest =>
    (!(c = 'u' && pw && leadsWith ['l', 'a', 'r'] rest && ruLookahead (rest.drop 3))) &&
      ruClean (isPyWs c) rest

/-! ## Scan-order occurrence list and witness fixtures -/

/-- The `(number, record)` occurrences of one column's word list, in word
order (the source loop's visit order). -/
def wordOccs (i : Nat) (c : Col) (ws : List Word) : List (Nat × QPos) :=
  ws.filterMap (fun w => (qnumOfWord w.text).map (fun q => (q, ⟨i, w.top.getD 0, c⟩)))

/-- All occurrences in scan order: pages ascending, left column before
right column within a page. -/
def occLoop : Nat → List Page → List (Nat × QPos)
  | _, [] => []
  | i, p :: rest =>
    let r := processPage p
    wordOccs i Col.left r.leftWords ++ wordOccs i Col.right r.rightWords ++ occLoop (i + 1) rest

/-- The scan-order occurrence list of a document (only the pages the
extractor actually reads). -/
def scanOccurrences (pages : List Page) : List (Nat × QPos) :=
  occLoop 1 (pages.take (min pages.length 2))

/-- The record of the last occurrence of a question number in a scan
list, if any. -/
def lastPosFor : List (Nat × QPos) → Nat → Option QPos
  | [], _ => none
  | e :: rest, q =>
    match lastPosFor rest q with
    | some v => some v
    | none => if e.1 = q then some e.2 else none

/-- Witness fixture: a page with no rulings whose crops always yield the
word `"1. q"` at top 100 and non-empty text. -/
def cPageC2 : Page :=
  ⟨100, 100, [], fun _ => ['t'], fun _ => [⟨"1. q".toList, some 100⟩]⟩

/-- Witness fixture: a page-1 right-column region with center 140. -/
def cImgC2 : PurpleImage := ⟨1, ⟨0, 0, 0, 0⟩, "B".toList, 140, Col.right⟩

/-- Witness fixture: a page with a qualifying vertical ruling at x = 40
whose crops yield empty text exactly when the crop's right edge is left
of x = 40 (so the first attempt's left side is empty). -/
def cPageC9 : Page :=
  ⟨100, 100, [⟨some 40, some 40, some 10, some 80⟩],
   fun b => if b.x1 < 40 then [] else ['t'], fun _ => []⟩

/-! ## Helper lemmas -/

/-- `find?` over a `filter` is `find?` of the conjunction. -/
theorem find_filter (l : List PurpleImage) (p q : PurpleImage → Bool) :
    (l.filter p).find? q = l.find? (fun a => p a && q a) := by
  induction l with
  | nil => rfl
  | cons a rest ih =>
    by_cases h : p a
    · by_cases h2 : q a
      · simp [List.filter, h, List.find?, h2]
      · simp [List.filter, h, List.find?, h2, ih]
    · simp [List.filter, h, List.find?, ih]

/-- A region returned by `matchRegion` comes from the supplied region
list. -/
theorem matchRegion_mem {q : Nat} {pos : PosMap} {imgs : List PurpleImage} {im : PurpleImage}
    (h : matchRegion q pos imgs = some im) : im ∈ imgs := by
  unfold matchRegion at h
  cases hp : posLookup pos q with
  | none => rw [hp] at h; exact absurd h (by simp)
  | some r =>
    rw [hp] at h
    simp only at h
    exact List.mem_of_mem_filter (List.mem_of_find?_eq_some h)

theorem posLookup_posInsert (m : PosMap) (q : Nat) (r : QPos) (q2 : Nat) :
    posLookup (posInsert m q r) q2 = if q2 = q then some r else posLookup m q2 := by
  induction m with
  | nil =>
    by_cases h : q2 = q
    · simp [posInsert, posLookup, h]
    · simp [posInsert, posLookup, h, Ne.symm h]
  | cons kv rest ih =>
    obtain ⟨k, v⟩ := kv
    by_cases hk : k = q
    · subst hk
      by_cases h2 : q2 = k
      · simp [posInsert, posLookup, h2]
      · simp [posInsert, posLookup, h2, Ne.symm h2]
    · by_cases h2 : q2 = k
      · subst h2
        simp [posInsert, posLookup, hk, Ne.symm hk, ih]
      · simp [posInsert, posLookup, hk, Ne.symm h2, ih]

theorem wordOccs_cons (i : Nat) (c : Col) (w : Word) (ws : List Word) :
    wordOccs i c (w :: ws) =
      match qnumOfWord w.text with
      | some q => (q, ⟨i, w.top.getD 0, c⟩) :: wordOccs i c ws
      | none => wordOccs i c ws := by
  cases hq : qnumOfWord w.text <;> simp [wordOccs, List.filterMap_cons, hq]

theorem foldWords_lookup (i : Nat) (c : Col) (ws : List Word) (m : PosMap) (q : Nat) :
    posLookup (foldWords i c ws m) q =
      match lastPosFor (wordOccs i c ws) q with
      | some v => some v
      | none => posLookup m q := by
  induction ws generalizing m with
  | nil => simp [foldWords, wordOccs, lastPosFor]
  | cons w ws ih =>
    cases hq : qnumOfWord w.text with
    | none =>
      have hstep : foldWords i c (w :: ws) m = foldWords i c ws m := by
        simp [foldWords, List.foldl_cons, hq]
      rw [hstep, ih, wordOccs_cons, hq]
    | some q' =>
      have hstep : foldWords i c (w :: ws) m =
          foldWords i c ws (posInsert m q' ⟨i, w.top.getD 0, c⟩) := by
        simp [foldWords, List.foldl_cons, hq]
      rw [hstep, ih, wordOccs_cons, hq]
      simp only [lastPosFor]
      cases lastPosFor (wordOccs i c ws) q with
      | some v => simp
      | none =>
        simp only []
        rw [posLookup_posInsert]
        by_cases h : q = q'
        · simp [h]
        · simp [h, Ne.symm h]

theorem lastPosFor_append (a b : List (Nat × QPos)) (q : Nat) :
    lastPosFor (a ++ b) q =
      match lastPosFor b q with
      | some v => some v
      | none => lastPosFor a q := by
  induction a with
  | nil => cases hb : lastPosFor b q <;> simp [lastPosFor, hb]
  | cons e rest ih =>
    show (match lastPosFor (rest ++ b) q with
          | some v => some v
          | none => if e.1 = q then some e.2 else none) = _
    rw [ih]
    cases hb : lastPosFor b q with
    | some v => rfl
    | none => simp [lastPosFor]

theorem tcpLoop_lookup (l : List Page) (i : Nat) (texts : List (List Char)) (m : PosMap) (q : Nat) :
    posLookup (tcpLoop i l (texts, m)).2 q =
      match lastPosFor (occLoop i l) q with
      | some v => some v
      | none => posLookup m q := by
  induction l generalizing i texts m with
  | nil => simp [tcpLoop, occLoop, lastPosFor]
  | cons p rest ih =>
    simp only [tcpLoop, occLoop]
    rw [ih, lastPosFor_append, lastPosFor_append, foldWords_lookup, foldWords_lookup]
    cases lastPosFor (occLoop (i + 1) rest) q <;>
      cases lastPosFor (wordOccs i Col.right (processPage p).rightWords) q <;>
      cases lastPosFor (wordOccs i Col.left (processPage p).leftWords) q <;>
      simp

theorem posInsert_mem {m : PosMap} {q : Nat} {r : QPos} {e : Nat × QPos}
    (h : e ∈ posInsert m q r) : e = (q, r) ∨ e ∈ m := by
  induction m with
  | nil => simpa [posInsert] using h
  | cons kv rest ih =>
    obtain ⟨k, v⟩ := kv
    simp only [posInsert] at h
    split at h
    · next hk =>
      subst hk
      rcases List.mem_cons.mp h with h | h
      · left; exact h
      · right; exact List.mem_cons_of_mem _ h
    · next hk =>
      rcases List.mem_cons.mp h with h | h
      · right; rw [h]; exact List.mem_cons_self _ _
      · rcases ih h with h2 | h2
        · left; exact h2
        · right; exact List.mem_cons_of_mem _ h2

theorem foldWords_mem {i : Nat} {c : Col} {ws : List Word} {m : PosMap} {e : Nat × QPos}
    (h : e ∈ foldWords i c ws m) : e.2.page = i ∨ e ∈ m := by
  induction ws generalizing m with
  | nil => right; simpa [foldWords] using h
  | cons w ws ih =>
    cases hq : qnumOfWord w.text with
    | none =>
      have hstep : foldWords i c (w :: ws) m = foldWords i c ws m := by
        simp [foldWords, List.foldl_cons, hq]
      rw [hstep] at h
      exact ih h
    | some q2 =>
      have hstep : foldWords i c (w :: ws) m =
          foldWords i c ws (posInsert m q2 ⟨i, w.top.getD 0, c⟩) := by
        simp [foldWords, List.foldl_cons, hq]
      rw [hstep] at h
      rcases ih h with hp | hm
      · left; exact hp
      · rcases posInsert_mem hm with he | hm2
        · left; rw [he]
        · right; exact hm2

theorem tcpLoop_mem {l : List Page} {i : Nat} {acc : List (List Char) × PosMap} {e : Nat × QPos}
    (h : e ∈ (tcpLoop i l acc).2) :
    e ∈ acc.2 ∨ (i ≤ e.2.page ∧ e.2.page < i + l.length) := by
  induction l generalizing i acc with
  | nil => left; simpa [tcpLoop] using h
  | cons p rest ih =>
    obtain ⟨texts, m⟩ := acc
    simp only [tcpLoop] at h
    rcases ih h with hm | hb
    · rcases foldWords_mem hm with hp | hm1
      · right; rw [List.length_cons]; omega
      · rcases foldWords_mem hm1 with hp | hm0
        · right; rw [List.length_cons]; omega
        · left; exact hm0
    · right; rw [List.length_cons]; omega

theorem posLookup_mem {m : PosMap} {q : Nat} {r : QPos} (h : posLookup m q = some r) :
    (q, r) ∈ m := by
  induction m with
  | nil => simp [posLookup] at h
  | cons kv rest ih =>
    obtain ⟨k, v⟩ := kv
    simp only [posLookup] at h
    split at h
    · next hk =>
      subst hk
      injection h with hv
      subst hv
      exact List.mem_cons_self _ _
    · next hk => exact List.mem_cons_of_mem _ (ih h)

theorem leadsWith_append {pat a : List Char} (b : List Char) (h : leadsWith pat a = true) :
    leadsWith pat (a ++ b) = true := by
  induction pat generalizing a with
  | nil => simp [leadsWith]
  | cons p ps ih =>
    cases a with
    | nil => simp [leadsWith] at h
    | cons c rest =>
      simp only [leadsWith, Bool.and_eq_true] at h
      simp only [List.cons_append, leadsWith, Bool.and_eq_true]
      exact ⟨h.1, ih h.2⟩

theorem leadsWith_length {pat l : List Char} (h : leadsWith pat l = true) :
    pat.length ≤ l.length := by
  induction pat generalizing l with
  | nil => simp
  | cons p ps ih =>
    cases l with
    | nil => simp [leadsWith] at h
    | cons c rest =>
      simp only [leadsWith, Bool.and_eq_true] at h
      simp only [List.length_cons]
      exact Nat.succ_le_succ (ih h.2)

theorem containsSeq_tail {pat : List Char} {c : Char} {l : List Char}
    (h : containsSeq pat (c :: l) = false) : containsSeq pat l = false := by
  simp only [containsSeq, Bool.or_eq_false_iff] at h
  exact h.2

theorem containsSeq_append_left {pat a : List Char} (b : List Char)
    (h : containsSeq pat a = true) : containsSeq pat (a ++ b) = true := by
  induction a with
  | nil =>
    simp only [containsSeq, List.isEmpty_iff] at h
    subst h
    cases b with
    | nil => simp [containsSeq]
    | cons c rest => simp [containsSeq, leadsWith]
  | cons c rest ih =>
    simp only [containsSeq, Bool.or_eq_true] at h
    simp only [List.cons_append, containsSeq, Bool.or_eq_true]
    rcases h with h | h
    · left; exact leadsWith_append b h
    · right; exact ih h

theorem containsSeq_dropWhile {pat l : List Char} (p : Char → Bool)
    (h : containsSeq pat l = false) : containsSeq pat (l.dropWhile p) = false := by
  induction l with
  | nil => simpa [List.dropWhile] using h
  | cons c rest ih =>
    rw [List.dropWhile_cons]
    by_cases hc : p c = true
    · simp only [hc, if_true]
      exact ih (containsSeq_tail h)
    · simp only [hc, if_false]
      exact h

theorem dropTrail_decomp (l : List Char) :
    l = dropTrailWs l ++ (l.reverse.takeWhile isPyWs).reverse := by
  unfold dropTrailWs
  rw [← List.reverse_append, List.takeWhile_append_dropWhile, List.reverse_reverse]

theorem dropTrail_decomp_ws (l : List Char) :
    ∀ c ∈ (l.reverse.takeWhile isPyWs).reverse, isPyWs c = true := by
  intro c hc
  rw [List.mem_reverse] at hc
  exact List.mem_takeWhile_imp hc

theorem containsSeq_dropTrail {pat l : List Char} (h : containsSeq pat l = false) :
    containsSeq pat (dropTrailWs l) = false := by
  by_contra hne
  rw [Bool.not_eq_false] at hne
  have := containsSeq_append_left (l.reverse.takeWhile isPyWs).reverse hne
  rw [← dropTrail_decomp] at this
  rw [this] at h
  simp at h

theorem containsSeq_strip {pat l : List Char} (h : containsSeq pat l = false) :
    containsSeq pat (stripChars l) = false :=
  containsSeq_dropTrail (containsSeq_dropWhile isPyWs h)

theorem mem_dropTrail {c : Char} {l : List Char} (h : c ∈ dropTrailWs l) : c ∈ l := by
  unfold dropTrailWs at h
  rw [List.mem_reverse] at h
  have := (List.dropWhile_sublist (l := l.reverse) (p := isPyWs)).mem h
  rwa [List.mem_reverse] at this

theorem mem_strip {c : Char} {l : List Char} (h : c ∈ stripChars l) : c ∈ l := by
  unfold stripChars at h
  exact (List.dropWhile_sublist (l := l) (p := isPyWs)).mem (mem_dropTrail h)

theorem replace_crlf_no_cr (t : List Char) : '\r' ∉ replace_crlf t := by
  induction t using replace_crlf.induct with
  | case1 => simp [replace_crlf]
  | case2 rest ih => simpa [replace_crlf] using ih
  | case3 rest h ih => simpa [replace_crlf] using ih
  | case4 c rest h1 h2 ih =>
    simp only [replace_crlf, List.mem_cons, not_or]
    exact ⟨fun hc => h2 hc.symm, ih⟩

theorem mem_rh {c : Char} {t : List Char} (h : c ∈ remove_hyphen_newline t) : c ∈ t := by
  induction t using remove_hyphen_newline.induct with
  | case1 => simp [remove_hyphen_newline] at h
  | case2 rest ih =>
    simp only [remove_hyphen_newline] at h
    simp [ih h]
  | case3 d rest hne ih =>
    simp only [remove_hyphen_newline, List.mem_cons] at h
    rcases h with h | h
    · simp [h]
    · simp [ih h]

theorem mem_csa {c : Char} {f : Bool} {t : List Char} (h : c ∈ collapse_spaces_aux f t) :
    c = ' ' ∨ c ∈ t := by
  induction t generalizing f with
  | nil => simp [collapse_spaces_aux] at h
  | cons d rest ih =>
    simp only [collapse_spaces_aux] at h
    by_cases hd : isSpaceTab d = true
    · rw [if_pos hd] at h
      rcases List.mem_append.mp h with h | h
      · left
        cases f <;> simp_all
      · rcases ih h with h | h
        · left; exact h
        · right; simp [h]
    · rw [if_neg hd] at h
      rcases List.mem_cons.mp h with h | h
      · right; simp [h]
      · rcases ih h with h | h
        · left; exact h
        · right; simp [h]

theorem mem_cna {c : Char} {f : Bool} {t : List Char} (h : c ∈ collapse_newlines_aux f t) :
    c = '\n' ∨ c ∈ t := by
  induction t generalizing f with
  | nil => simp [collapse_newlines_aux] at h
  | cons d rest ih =>
    simp only [collapse_newlines_aux] at h
    split at h
    · split at h
      · rcases ih h with h | h
        · left; exact h
        · right; simp [h]
      · split at h
        · rcases List.mem_cons.mp h with h | h
          · left; exact h
          · rcases List.mem_cons.mp h with h | h
            · left; exact h
            · rcases ih h with h | h
              · left; exact h
              · right; simp [h]
        · rcases List.mem_cons.mp h with h | h
          · left; exact h
          · rcases ih h with h | h
            · left; exact h
            · right; simp [h]
    · rcases List.mem_cons.mp h with h | h
      · right; simp [h]
      · rcases ih h with h | h
        · left; exact h
        · right; simp [h]

theorem csa_no_tab (f : Bool) (t : List Char) : '\t' ∉ collapse_spaces_aux f t := by
  induction t generalizing f with
  | nil => simp [collapse_spaces_aux]
  | cons d rest ih =>
    simp only [collapse_spaces_aux]
    by_cases hd : isSpaceTab d = true
    · rw [if_pos hd]
      intro hmem
      rcases List.mem_append.mp hmem with h | h
      · cases f <;> simp_all
      · exact ih true h
    · rw [if_neg hd]
      intro hmem
      rcases List.mem_cons.mp hmem with h | h
      · rw [← h] at hd
        simp [isSpaceTab] at hd
      · exact ih false h

theorem csa_true_head {l : List Char} {d : Char} {r : List Char}
    (h : collapse_spaces_aux true l = d :: r) : isSpaceTab d = false := by
  induction l with
  | nil => simp [collapse_spaces_aux] at h
  | cons c rest ih =>
    simp only [collapse_spaces_aux] at h
    by_cases hc : isSpaceTab c = true
    · rw [if_pos hc] at h
      exact ih h
    · rw [if_neg hc] at h
      injection h with h1 h2
      rw [← h1]
      simpa using hc

theorem csa_false_head {l : List Char} {d : Char} {r : List Char}
    (h : collapse_spaces_aux false l = d :: r) : d = ' ' ∨ l.head? = some d := by
  cases l with
  | nil => simp [collapse_spaces_aux] at h
  | cons c rest =>
    simp only [collapse_spaces_aux] at h
    by_cases hc : isSpaceTab c = true
    · rw [if_pos hc] at h
      have h2 : ' ' :: collapse_spaces_aux true rest = d :: r := h
      injection h2 with h1 _
      left; exact h1.symm
    · rw [if_neg hc] at h
      injection h with h1 h2
      right; rw [h1]; rfl

theorem csa_nocreate_dn {t : List Char} (f : Bool)
    (h : containsSeq ['-', '\n'] t = false) :
    containsSeq ['-', '\n'] (collapse_spaces_aux f t) = false := by
  induction t generalizing f with
  | nil => exact h
  | cons c rest ih =>
    simp only [collapse_spaces_aux]
    by_cases hc : isSpaceTab c = true
    · rw [if_pos hc]
      have htail := ih true (containsSeq_tail h)
      cases f with
      | true => simpa using htail
      | false =>
        simp only [List.cons_append, List.nil_append, containsSeq, Bool.or_eq_false_iff]
        refine ⟨?_, htail⟩
        simp [leadsWith]
    · rw [if_neg hc]
      have htail := ih false (containsSeq_tail h)
      simp only [containsSeq, Bool.or_eq_false_iff]
      refine ⟨?_, htail⟩
      by_cases hdash : c = '-'
      · subst hdash
        simp only [leadsWith, Bool.and_eq_false_iff]
        right
        cases hcs : collapse_spaces_aux false rest with
        | nil => simp [leadsWith]
        | cons d r2 =>
          simp only [leadsWith, Bool.and_eq_false_iff]
          left
          rcases csa_false_head hcs with hd | hd
          · subst hd; decide
          · cases rest with
            | nil => exact absurd (show ([] : List Char) = d :: r2 from hcs) (by simp)
            | cons c2 rr =>
              simp only [List.head?] at hd
              injection hd with hd
              subst hd
              by_cases hc2 : c2 = '\n'
              · subst hc2
                simp [containsSeq, leadsWith] at h
              · exact decide_eq_false_iff_not.mpr (Ne.symm hc2)
      · simp only [leadsWith, Bool.and_eq_false_iff]
        left
        exact decide_eq_false_iff_not.mpr (Ne.symm hdash)

theorem csa_no_sp2 (f : Bool) (t : List Char) :
    containsSeq [' ', ' '] (collapse_spaces_aux f t) = false := by
  induction t generalizing f with
  | nil => cases f <;> rfl
  | cons c rest ih =>
    simp only [collapse_spaces_aux]
    by_cases hc : isSpaceTab c = true
    · rw [if_pos hc]
      cases f with
      | true => simpa using ih true
      | false =>
        simp only [List.cons_append, List.nil_append, containsSeq, Bool.or_eq_false_iff]
        refine ⟨?_, ih true⟩
        cases hcs : collapse_spaces_aux true rest with
        | nil => simp [leadsWith]
        | cons d r2 =>
          simp only [leadsWith, Bool.and_eq_false_iff]
          right; left
          have hnd := csa_true_head hcs
          apply decide_eq_false_iff_not.mpr
          intro hd
          rw [← hd] at hnd
          simp [isSpaceTab] at hnd
    · rw [if_neg hc]
      simp only [containsSeq, Bool.or_eq_false_iff]
      refine ⟨?_, ih false⟩
      simp only [leadsWith, Bool.and_eq_false_iff]
      left
      apply decide_eq_false_iff_not.mpr
      intro hsp
      rw [← hsp] at hc
      simp [isSpaceTab] at hc


theorem cna_false_head {l : List Char} {d : Char} {r : List Char}
    (h : collapse_newlines_aux false l = d :: r) : l.head? = some d := by
  cases l with
  | nil => exact absurd (show ([] : List Char) = d :: r from h) (by simp)
  | cons c rest =>
    simp only [collapse_newlines_aux] at h
    split at h
    · next hc =>
      rw [if_neg (by simp)] at h
      split at h
      · injection h with h1 _
        rw [hc, h1]; rfl
      · injection h with h1 _
        rw [hc, h1]; rfl
    · injection h with h1 _
      rw [h1]; rfl

theorem cna_true_head {l : List Char} {d : Char} {r : List Char}
    (h : collapse_newlines_aux true l = d :: r) : d ≠ '\n' := by
  induction l with
  | nil => exact absurd (show ([] : List Char) = d :: r from h) (by simp)
  | cons c rest ih =>
    simp only [collapse_newlines_aux] at h
    split at h
    · rw [if_pos trivial] at h
      exact ih h
    · next hc =>
      injection h with h1 _
      rw [← h1]
      exact hc

theorem cna_nocreate_pair {a b : Char} {t : List Char} (f : Bool) (ha : a ≠ '\n')
    (h : containsSeq [a, b] t = false) :
    containsSeq [a, b] (collapse_newlines_aux f t) = false := by
  induction t generalizing f with
  | nil => exact h
  | cons c rest ih =>
    simp only [collapse_newlines_aux]
    split
    · next hc =>
      subst hc
      split
      · exact ih true (containsSeq_tail h)
      · split
        · simp only [containsSeq, Bool.or_eq_false_iff]
          refine ⟨by simp [leadsWith, ha], ?_, ?_⟩
          · simp [leadsWith, ha]
          · exact ih true (containsSeq_tail h)
        · simp only [containsSeq, Bool.or_eq_false_iff]
          refine ⟨by simp [leadsWith, ha], ?_⟩
          exact ih false (containsSeq_tail h)
    · next hc =>
      simp only [containsSeq, Bool.or_eq_false_iff]
      refine ⟨?_, ih false (containsSeq_tail h)⟩
      by_cases hca : c = a
      · subst hca
        simp only [leadsWith, Bool.and_eq_false_iff]
        right
        cases hcn : collapse_newlines_aux false rest with
        | nil => simp [leadsWith]
        | cons d r2 =>
          simp only [leadsWith, Bool.and_eq_false_iff]
          left
          have hd := cna_false_head hcn
          cases rest with
          | nil => simp [List.head?] at hd
          | cons c2 rr =>
            rw [List.head?_cons, Option.some.injEq] at hd
            subst hd
            by_cases hc2 : c2 = b
            · subst hc2
              simp [containsSeq, leadsWith] at h
            · exact decide_eq_false_iff_not.mpr (Ne.symm hc2)
      · simp only [leadsWith, Bool.and_eq_false_iff]
        left
        exact decide_eq_false_iff_not.mpr (Ne.symm hca)

theorem cna_false_two_heads {l : List Char} {d2 : Char} {r : List Char}
    (h : collapse_newlines_aux false l = '\n' :: d2 :: r) (hd2 : d2 = '\n') :
    leadsWith ['\n', '\n'] l = true := by
  subst hd2
  cases l with
  | nil => exact absurd (show ([] : List Char) = '\n' :: '\n' :: r from h) (by simp)
  | cons c rest2 =>
    simp only [collapse_newlines_aux] at h
    split at h
    · next hc =>
      subst hc
      rw [if_neg (by simp)] at h
      split at h
      · next hlw2 =>
        cases rest2 with
        | nil => simp [leadsWith] at hlw2
        | cons e rr =>
          simp only [leadsWith, Bool.and_eq_true] at hlw2
          simp [leadsWith, hlw2.1]
      · injection h with _ h
        have hd := cna_false_head h
        cases rest2 with
        | nil => simp [List.head?] at hd
        | cons e rr =>
          rw [List.head?_cons, Option.some.injEq] at hd
          simp [leadsWith, hd]
    · next hc =>
      injection h with h1 _
      exact absurd h1 hc

theorem cna_no_nnn (f : Bool) (t : List Char) :
    containsSeq ['\n', '\n', '\n'] (collapse_newlines_aux f t) = false := by
  induction t generalizing f with
  | nil => cases f <;> rfl
  | cons c rest ih =>
    simp only [collapse_newlines_aux]
    split
    · next hc =>
      subst hc
      split
      · exact ih true
      · split
        · simp only [containsSeq, Bool.or_eq_false_iff]
          refine ⟨?_, ?_, ih true⟩
          · simp only [leadsWith]
            cases hX : collapse_newlines_aux true rest with
            | nil => simp [leadsWith]
            | cons d X2 =>
              have hd := cna_true_head hX
              simp [leadsWith, Ne.symm hd]
          · simp only [leadsWith]
            cases hX : collapse_newlines_aux true rest with
            | nil => simp [leadsWith]
            | cons d X2 =>
              have hd := cna_true_head hX
              simp [leadsWith, Ne.symm hd]
        · next hlw =>
          simp only [containsSeq, Bool.or_eq_false_iff]
          refine ⟨?_, ih false⟩
          cases hX : collapse_newlines_aux false rest with
          | nil => simp [leadsWith]
          | cons d X2 =>
            by_cases hd : d = '\n'
            · subst hd
              cases X2 with
              | nil => simp [leadsWith]
              | cons d2 Y =>
                by_cases hd2 : d2 = '\n'
                · exact absurd (cna_false_two_heads hX hd2) hlw
                · simp [leadsWith, Ne.symm hd2]
            · simp [leadsWith, Ne.symm hd]
    · next hc =>
      simp only [containsSeq, Bool.or_eq_false_iff]
      exact ⟨by simp [leadsWith, Ne.symm hc], ih false⟩

theorem rcr_id {t : List Char} (h : '\r' ∉ t) : replace_crlf t = t := by
  induction t using replace_crlf.induct with
  | case1 => rfl
  | case2 rest ih => exact absurd (by simp) h
  | case3 rest hne ih => exact absurd (by simp) h
  | case4 c rest h1 h2 ih =>
    simp only [replace_crlf, List.cons.injEq]
    exact ⟨trivial, ih (fun hm => h (List.mem_cons_of_mem _ hm))⟩

theorem rh_id {t : List Char} (h : containsSeq ['-', '\n'] t = false) :
    remove_hyphen_newline t = t := by
  induction t using remove_hyphen_newline.induct with
  | case1 => rfl
  | case2 rest ih =>
    exfalso
    simp [containsSeq, leadsWith] at h
  | case3 c rest hne ih =>
    simp only [remove_hyphen_newline, List.cons.injEq]
    exact ⟨trivial, ih (containsSeq_tail h)⟩

theorem csa_id {t : List Char} (f : Bool) (htab : '\t' ∉ t)
    (hsp : containsSeq [' ', ' '] t = false)
    (hf : f = true → ∀ d, t.head? = some d → isSpaceTab d = false) :
    collapse_spaces_aux f t = t := by
  induction t generalizing f with
  | nil => cases f <;> rfl
  | cons c rest ih =>
    simp only [collapse_spaces_aux]
    by_cases hc : isSpaceTab c = true
    · cases f with
      | true =>
        exact absurd (hf rfl c rfl) (by simp [hc])
      | false =>
        rw [if_pos hc]
        have hcsp : c = ' ' := by
          rcases (by simpa [isSpaceTab] using hc : c = ' ' ∨ c = '\t') with h | h
          · exact h
          · exact absurd (by simp [h]) htab
        subst hcsp
        show ' ' :: collapse_spaces_aux true rest = ' ' :: rest
        refine congrArg (fun x => ' ' :: x) ?_
        apply ih true (fun hm => htab (List.mem_cons_of_mem _ hm)) (containsSeq_tail hsp)
        intro _ d hd
        cases rest with
        | nil => simp [List.head?] at hd
        | cons c2 rr =>
          rw [List.head?_cons, Option.some.injEq] at hd
          subst hd
          have hds : c2 ≠ ' ' := by
            intro hdd
            subst hdd
            simp [containsSeq, leadsWith] at hsp
          have hdt : c2 ≠ '\t' := by
            intro hdd
            exact htab (by simp [hdd])
          simp [isSpaceTab, hds, hdt]
    · rw [if_neg hc]
      simp only [List.cons.injEq]
      refine ⟨trivial, ?_⟩
      exact ih false (fun hm => htab (List.mem_cons_of_mem _ hm)) (containsSeq_tail hsp)
        (by intro hx; cases hx)

theorem cna_id {t : List Char} (h : containsSeq ['\n', '\n', '\n'] t = false) :
    collapse_newlines_aux false t = t := by
  induction t with
  | nil => rfl
  | cons c rest ih =>
    simp only [collapse_newlines_aux]
    by_cases hc : c = '\n'
    · rw [if_pos hc, if_neg (by simp)]
      have hlw : leadsWith ['\n', '\n'] rest = false := by
        subst hc
        by_contra hx
        rw [Bool.not_eq_false] at hx
        simp only [containsSeq, Bool.or_eq_false_iff] at h
        have := h.1
        simp only [leadsWith] at this
        rw [hx] at this
        simp at this
      rw [if_neg (by simp [hlw])]
      rw [hc, ih (containsSeq_tail h)]
    · rw [if_neg hc, ih (containsSeq_tail h)]

theorem leadsWith_lar {rest : List Char} (h : leadsWith ['l', 'a', 'r'] rest = true) :
    ∃ r2, rest = 'l' :: 'a' :: 'r' :: r2 := by
  cases rest with
  | nil => simp [leadsWith] at h
  | cons a r1 =>
    cases r1 with
    | nil => simp [leadsWith] at h
    | cons b r2 =>
      cases r2 with
      | nil => simp [leadsWith] at h
      | cons d r3 =>
        simp only [leadsWith, Bool.and_eq_true, decide_eq_true_eq] at h
        exact ⟨r3, by rw [← h.1, ← h.2.1, ← h.2.2.1]⟩

theorem rua_cons_match (pw : Bool) (c h1 h2 h3 : Char) (r2 : List Char)
    (hcond : (c = 'u' && pw && leadsWith ['l', 'a', 'r'] (h1 :: h2 :: h3 :: r2) &&
      ruLookahead ((h1 :: h2 :: h3 :: r2).drop 3)) = true) :
    remove_ular_aux pw (c :: h1 :: h2 :: h3 :: r2) = remove_ular_aux false r2 := by
  simp only [remove_ular_aux]
  rw [if_pos hcond]

theorem rua_cons_neg (pw : Bool) (c : Char) (rest : List Char)
    (hcond : ¬((c = 'u' && pw && leadsWith ['l', 'a', 'r'] rest &&
      ruLookahead (rest.drop 3)) = true)) :
    remove_ular_aux pw (c :: rest) = c :: remove_ular_aux (isPyWs c) rest := by
  cases rest with
  | nil => simp only [remove_ular_aux]; rw [if_neg hcond]
  | cons a r1 =>
    cases r1 with
    | nil => simp only [remove_ular_aux]; rw [if_neg hcond]
    | cons b r2 =>
      cases r2 with
      | nil => simp only [remove_ular_aux]; rw [if_neg hcond]
      | cons d r3 => simp only [remove_ular_aux]; rw [if_neg hcond]

theorem rua_length (pw : Bool) (l : List Char) :
    (remove_ular_aux pw l).length ≤ l.length := by
  induction pw, l using remove_ular_aux.induct with
  | case1 x => simp [remove_ular_aux]
  | case2 pw c h1 h2 h3 r2 hcond ih =>
    rw [rua_cons_match pw c h1 h2 h3 r2 hcond]
    simp only [List.length_cons]
    omega
  | case3 pw c rest hcond hsh =>
    exfalso
    simp only [Bool.and_eq_true] at hcond
    obtain ⟨r2, hrest⟩ := leadsWith_lar hcond.1.2
    exact hsh _ _ _ _ hrest
  | case4 pw c rest hcond ih =>
    rw [rua_cons_neg pw c rest hcond]
    simpa using ih

theorem ruClean_sound {pw : Bool} {l : List Char} (h : ruClean pw l = true) :
    remove_ular_aux pw l = l := by
  induction l generalizing pw with
  | nil => rfl
  | cons c rest ih =>
    simp only [ruClean, Bool.and_eq_true] at h
    have hg : (c = 'u' && pw && leadsWith ['l', 'a', 'r'] rest &&
        ruLookahead (rest.drop 3)) = false := by
      have h1 := h.1
      rwa [Bool.not_eq_true'] at h1
    rw [rua_cons_neg pw c rest (by simp [hg]), ih h.2]

theorem ruClean_complete {pw : Bool} {l : List Char} (h : remove_ular_aux pw l = l) :
    ruClean pw l = true := by
  induction l generalizing pw with
  | nil => rfl
  | cons c rest ih =>
    by_cases hcond : (c = 'u' && pw && leadsWith ['l', 'a', 'r'] rest &&
        ruLookahead (rest.drop 3)) = true
    · exfalso
      have hcond2 := hcond
      simp only [Bool.and_eq_true] at hcond2
      obtain ⟨r2, hrest⟩ := leadsWith_lar hcond2.1.2
      subst hrest
      rw [rua_cons_match pw c 'l' 'a' 'r' r2 hcond] at h
      have hlen := congrArg List.length h
      have hle := rua_length false r2
      simp only [List.length_cons] at hlen
      omega
    · rw [rua_cons_neg pw c rest hcond] at h
      injection h with _ h2
      simp only [ruClean, Bool.and_eq_true]
      refine ⟨?_, ih h2⟩
      rw [Bool.not_eq_true']
      exact Bool.eq_false_iff.mpr hcond

theorem ruClean_weaken {pw : Bool} {l : List Char} (h : ruClean pw l = true) :
    ruClean false l = true := by
  cases l with
  | nil => rfl
  | cons c rest =>
    simp only [ruClean, Bool.and_eq_true] at h ⊢
    exact ⟨by simp, h.2⟩

theorem ruClean_dropWhile {pw : Bool} {l : List Char} (h : ruClean pw l = true) :
    ruClean false (l.dropWhile isPyWs) = true := by
  induction l generalizing pw with
  | nil => rfl
  | cons c rest ih =>
    rw [List.dropWhile_cons]
    simp only [ruClean, Bool.and_eq_true] at h
    by_cases hc : isPyWs c = true
    · rw [if_pos hc]
      exact ih h.2
    · rw [if_neg hc]
      exact ruClean_weaken (by simp only [ruClean, Bool.and_eq_true]; exact h)

theorem ruLookahead_append_ws {x t : List Char} (hx : ruLookahead x = true)
    (ht : ∀ c ∈ t, isPyWs c = true) : ruLookahead (x ++ t) = true := by
  cases x with
  | nil =>
    cases t with
    | nil => rfl
    | cons c rest => simp [ruLookahead, ht c (by simp)]
  | cons c rest => simpa [ruLookahead] using hx

theorem ruClean_append_ws {m t : List Char} {pw : Bool} (ht : ∀ c ∈ t, isPyWs c = true)
    (h : ruClean pw (m ++ t) = true) : ruClean pw m = true := by
  induction m generalizing pw with
  | nil => rfl
  | cons c rest ih =>
    rw [List.cons_append] at h
    simp only [ruClean, Bool.and_eq_true] at h
    simp only [ruClean, Bool.and_eq_true]
    refine ⟨?_, ih h.2⟩
    rw [Bool.not_eq_true']
    by_contra hx
    rw [Bool.not_eq_false] at hx
    simp only [Bool.and_eq_true] at hx
    have hlw2 : leadsWith ['l', 'a', 'r'] (rest ++ t) = true := leadsWith_append t hx.1.2
    have hlen : 3 ≤ rest.length := by
      have := leadsWith_length hx.1.2
      simpa using this
    have hlook2 : ruLookahead ((rest ++ t).drop 3) = true := by
      rw [List.drop_append_of_le_length hlen]
      exact ruLookahead_append_ws hx.2 ht
    have hguard : (c = 'u' && pw && leadsWith ['l', 'a', 'r'] (rest ++ t) &&
        ruLookahead ((rest ++ t).drop 3)) = true := by
      simp only [Bool.and_eq_true]
      exact ⟨⟨hx.1.1, hlw2⟩, hlook2⟩
    have hneg := h.1
    rw [hguard] at hneg
    simp at hneg

theorem ru_strip {t : List Char} (h : remove_ular_aux false t = t) :
    remove_ular_aux false (stripChars t) = stripChars t := by
  have hc := ruClean_complete h
  have h1 := ruClean_dropWhile hc
  have hws := dropTrail_decomp_ws (t.dropWhile isPyWs)
  apply ruClean_sound
  apply ruClean_append_ws hws
  simp only [stripChars]
  rw [← dropTrail_decomp]
  exact h1

theorem dropWhile_dropWhile (p : Char → Bool) (l : List Char) :
    (l.dropWhile p).dropWhile p = l.dropWhile p := by
  induction l with
  | nil => rfl
  | cons c rest ih =>
    rw [List.dropWhile_cons]
    by_cases hc : p c = true
    · rw [if_pos hc]; exact ih
    · rw [if_neg hc, List.dropWhile_cons, if_neg hc]

theorem dropTrail_dropTrail (l : List Char) : dropTrailWs (dropTrailWs l) = dropTrailWs l := by
  unfold dropTrailWs
  rw [List.reverse_reverse, dropWhile_dropWhile]

theorem dropWhile_head_not {p : Char → Bool} {l : List Char} {c : Char} {rest : List Char}
    (h : l.dropWhile p = c :: rest) : p c = false := by
  induction l with
  | nil => simp at h
  | cons c0 rr ih =>
    rw [List.dropWhile_cons] at h
    by_cases hc0 : p c0 = true
    · rw [if_pos hc0] at h; exact ih h
    · rw [if_neg hc0] at h
      injection h with h1 _
      rw [← h1]
      exact Bool.eq_false_iff.mpr hc0

theorem strip_idem (l : List Char) : stripChars (stripChars l) = stripChars l := by
  unfold stripChars
  have hhead : (dropTrailWs (l.dropWhile isPyWs)).dropWhile isPyWs
      = dropTrailWs (l.dropWhile isPyWs) := by
    cases hdt : dropTrailWs (l.dropWhile isPyWs) with
    | nil => rfl
    | cons d r =>
      have hdec := dropTrail_decomp (l.dropWhile isPyWs)
      rw [hdt] at hdec
      have hd : isPyWs d = false := dropWhile_head_not (hdec.trans (List.cons_append d r _))
      rw [List.dropWhile_cons, if_neg (by simp [hd])]
  rw [hhead, dropTrail_dropTrail]

/-! ## Claims -/

/-- C1, counterexample: the matcher keeps no record of regions already
returned, so the single region (page 1, left column, center 140) is
returned as the image of both question 1 (top 100, window [50, 250]) and
question 2 (top 110, window [60, 260]) in one assembled output — the
claimed at-most-one-question invariant is false. -/
theorem c1_region_reused_counterexample :
    (buildOutput [(1, "x".toList), (2, "y".toList)]
        [(1, ⟨1, 100, Col.left⟩), (2, ⟨1, 110, Col.left⟩)]
        [⟨1, ⟨0, 0, 0, 0⟩, "IMG".toList, 140, Col.left⟩]).map Record.imagem =
      ["IMG".toList, "IMG".toList]
    ∧ "IMG".toList ≠ ([] : List Char) := by
  constructor
  · have h1 : match_image_to_question 1 [(1, ⟨1, 100, Col.left⟩), (2, ⟨1, 110, Col.left⟩)]
        [⟨1, ⟨0, 0, 0, 0⟩, "IMG".toList, 140, Col.left⟩] = "IMG".toList := by
      simp only [match_image_to_question, matchRegion, posLookup, List.filter, List.find?]
      norm_num
    have h2 : match_image_to_question 2 [(1, ⟨1, 100, Col.left⟩), (2, ⟨1, 110, Col.left⟩)]
        [⟨1, ⟨0, 0, 0, 0⟩, "IMG".toList, 140, Col.left⟩] = "IMG".toList := by
      simp only [match_image_to_question, matchRegion, posLookup, List.filter, List.find?]
      norm_num
    simp only [buildOutput, List.map, h1, h2]
  · decide

/-- C1, amended: each output question record carries at most one image —
its `imagem` field is either empty or the base64 of one of the extracted
regions; but the first-satisfying match is computed independently per
question, so the same region may serve several questions (see the
counterexample). -/
theorem c1_record_at_most_one_image (qlist : List (Nat × List Char)) (pos : PosMap)
    (imgs : List PurpleImage) (r : Record) (h : r ∈ buildOutput qlist pos imgs) :
    r.imagem = [] ∨ ∃ img ∈ imgs, r.imagem = img.b64 := by
  unfold buildOutput at h
  rw [List.mem_map] at h
  obtain ⟨nq, hmem, heq⟩ := h
  subst heq
  simp only []
  unfold match_image_to_question
  cases hm : matchRegion nq.1 pos imgs with
  | none => left; rfl
  | some im => right; exact ⟨im, matchRegion_mem hm, rfl⟩

/-- C1, witness: the amended theorem applied to a concrete one-question
run with no indexed positions. -/
theorem c1_record_at_most_one_image_witness :
    (Record.mk 1 "<p>x</p>".toList [] [] []).imagem = [] ∨
      ∃ img ∈ ([] : List PurpleImage), (Record.mk 1 "<p>x</p>".toList [] [] []).imagem = img.b64 :=
  c1_record_at_most_one_image [(1, "x".toList)] [] []
    (Record.mk 1 "<p>x</p>".toList [] [] []) (by decide)

/-- C4, counterexample: on the exact single-line text
`"1. Stem one. 2. Stem two."` the MULTILINE `^` anchor only matches at
position 0, so the mid-line `"2."` does not start a question: the
segmenter returns one pair, not the claimed two. -/
theorem c4_single_line_counterexample :
    split_questions "1. Stem one. 2. Stem two.".toList ≠
      [(1, "Stem one.".toList), (2, "Stem two.".toList)]
    ∧ split_questions "1. Stem one. 2. Stem two.".toList =
      [(1, "Stem one. 2. Stem two.".toList)] := by
  constructor
  · decide
  · decide

/-- C4, amended: with the two markers on separate lines (as the pattern's
`^` anchor requires), the segmenter returns the claimed two pairs; and on
any text with no match of the numbered-marker pattern it returns the
empty list. -/
theorem c4_segmenter (s : List Char) (h : findFirstQ true s = none) :
    split_questions "1. Stem one.\n2. Stem two.".toList =
      [(1, "Stem one.".toList), (2, "Stem two.".toList)]
    ∧ split_questions s = [] := by
  refine ⟨by decide, ?_⟩
  unfold split_questions
  rw [h]

/-- C4, witness: the amended theorem applied to a concrete text with no
numbered markers. -/
theorem c4_segmenter_witness : split_questions "text with no numbered markers".toList = [] :=
  (c4_segmenter "text with no numbered markers".toList (by decide)).2

/-- C5: the matcher returns the empty string when the number has no
indexed position, and otherwise the base64 of the first region (in
extraction order) on the same page, in the same column, with vertical
center in `[top - 50, top + 100 + 50]` — and, in particular, for a
question at top 100 a same-page same-column region with center 140
matches while one with center 400 does not. -/
theorem c5_matcher_first_in_window (q : Nat) (pos : PosMap) (imgs : List PurpleImage) :
    (match_image_to_question q pos imgs =
      match posLookup pos q with
      | none => []
      | some r =>
        match imgs.find? (fun im =>
            decide (im.page = r.page ∧ im.col_hint = r.col) &&
            (decide (r.y_start - 50 ≤ im.y_center) &&
             decide (im.y_center ≤ r.y_start + 100 + 50))) with
        | some im => im.b64
        | none => [])
    ∧ match_image_to_question 1 [(1, ⟨1, 100, Col.left⟩)]
        [⟨1, ⟨0, 0, 0, 0⟩, "B".toList, 140, Col.left⟩] = "B".toList
    ∧ match_image_to_question 1 [(1, ⟨1, 100, Col.left⟩)]
        [⟨1, ⟨0, 0, 0, 0⟩, "B".toList, 400, Col.left⟩] = [] := by
  refine ⟨?_, ?_, ?_⟩
  · unfold match_image_to_question matchRegion
    cases posLookup pos q with
    | none => rfl
    | some r => simp [find_filter]
  · simp only [match_image_to_question, matchRegion, posLookup, List.filter, List.find?]
    norm_num
  · simp only [match_image_to_question, matchRegion, posLookup, List.filter, List.find?]
    norm_num

/-- C6, counterexample: the alternatives mapping of the example body uses
keys of the form `"alternativa_<letter>"` (as serialized in the output),
not `"alternative_<letter>"` as the claim states. -/
theorem c6_key_spelling_counterexample :
    ((parse_question_block "What is 2+2? a) 3 b) 4 c) 5".toList).2.map Prod.fst) =
      ["alternativa_a".toList, "alternativa_b".toList, "alternativa_c".toList]
    ∧ "alternative_a".toList ∉
        ((parse_question_block "What is 2+2? a) 3 b) 4 c) 5".toList).2.map Prod.fst) := by
  constructor
  · decide
  · decide

/-- C6, amended: on `"What is 2+2? a) 3 b) 4 c) 5"` the parser returns
stem `"What is 2+2?"` and the three-entry mapping with keys
`"alternativa_a"`, `"alternativa_b"`, `"alternativa_c"` mapping to
`"3"`, `"4"`, `"5"`; and on any body with no match of the lettered-option
pattern the whole stripped body is the stem and the mapping is empty. -/
theorem c6_alternative_parse (body : List Char) (h : findFirstAlt true body = none) :
    parse_question_block "What is 2+2? a) 3 b) 4 c) 5".toList =
      ("What is 2+2?".toList,
        [("alternativa_a".toList, "3".toList), ("alternativa_b".toList, "4".toList),
         ("alternativa_c".toList, "5".toList)])
    ∧ parse_question_block body = (stripChars body, []) := by
  refine ⟨by decide, ?_⟩
  unfold parse_question_block
  rw [h]

/-- C6, witness: the amended theorem applied to a concrete body with no
lettered-option marker. -/
theorem c6_alternative_parse_witness :
    parse_question_block "plain stem with no options".toList =
      (stripChars "plain stem with no options".toList, []) :=
  (c6_alternative_parse "plain stem with no options".toList (by decide)).2

/-- C7: the color classifier accepts the exact reference color, rejects
white, rejects any three-component color at squared distance exactly the
squared threshold (the comparison is strict), and rejects absent or
short color data. -/
theorem c7_color_classifier (c l : List ℚ)
    (hc : rgb_distance_sq (c.take 3) purpleTarget = (15 / 100) ^ 2)
    (hclen : 3 ≤ c.length) (hl : l.length < 3) :
    is_purple_color (some purpleTarget) = true
    ∧ is_purple_color (some [1, 1, 1]) = false
    ∧ is_purple_color (some c) = false
    ∧ is_purple_color none = false
    ∧ is_purple_color (some l) = false := by
  refine ⟨?_, ?_, ?_, rfl, ?_⟩
  · norm_num [is_purple_color, purpleTarget, rgb_distance_sq]
  · norm_num [is_purple_color, purpleTarget, rgb_distance_sq]
  · simp only [is_purple_color]
    rw [if_neg (by omega), hc]
    simp
  · simp only [is_purple_color]
    rw [if_pos hl]

/-- C7, witness: a color at distance exactly 0.15 from the reference and
a one-component color, both rejected. -/
theorem c7_color_classifier_witness :
    is_purple_color (some [156 / 255 + 15 / 100, 40 / 255, 176 / 255]) = false
    ∧ is_purple_color (some [(0 : ℚ)]) = false :=
  let h := c7_color_classifier [156 / 255 + 15 / 100, 40 / 255, 176 / 255] [0]
    (by norm_num [rgb_distance_sq, purpleTarget]) (by norm_num) (by norm_num)
  ⟨h.2.2.1, h.2.2.2.2⟩

/-- C10, counterexample: when the pages are processed successfully (the
temporary file is then created by `mkstemp`) but `doc.save` raises, the
exception escapes `extract_and_remove_purple_rectangles` before `main`'s
`try`/`finally` is entered: the process exits on the exception with the
temporary file still existing. -/
theorem c10_save_failure_leak_counterexample :
    runExtract ⟨Except.ok [], Except.error 5, Except.ok ()⟩ = (Except.error 5, true)
    ∧ runMain true true ⟨⟨Except.ok [], Except.error 5, Except.ok ()⟩, Except.ok ()⟩ =
        (Except.error 5, true) :=
  ⟨rfl, rfl⟩

/-- C10, amended: once `extract_and_remove_purple_rectangles` returns
(rather than raises), the temporary file is deleted before the process
exits on the success path and on every exceptional path of the remaining
pipeline, and an exception of the `try` body still propagates after the
cleanup. -/
theorem c10_cleanup_after_extract_returns (env : MainEnv) (imgs : List PurpleImage) (e : Nat)
    (h : runExtract env.extractEnv = (Except.ok imgs, true)) :
    (runMain true true env).2 = false
    ∧ (env.bodyResult = Except.error e → runMain true true env = (Except.error e, false))
    ∧ (env.bodyResult = Except.ok () → runMain true true env = (Except.ok 0, false)) := by
  unfold runMain
  rw [h]
  cases hb : env.bodyResult with
  | ok u => simp
  | error e2 => simp

/-- C10, witness: a run whose `try` body raises error 7 after a
successful extraction: the temporary file is gone and the error
propagates. -/
theorem c10_cleanup_witness :
    (runMain true true ⟨⟨Except.ok [], Except.ok (), Except.ok ()⟩, Except.error 7⟩).2 = false
    ∧ runMain true true ⟨⟨Except.ok [], Except.ok (), Except.ok ()⟩, Except.error 7⟩ =
        (Except.error 7, false) :=
  let h := c10_cleanup_after_extract_returns
    ⟨⟨Except.ok [], Except.ok (), Except.ok ()⟩, Except.error 7⟩ [] 7 rfl
  ⟨h.1, h.2.1 rfl⟩

/-- C2: for every input document, the extraction pass reads at most the
first two pages — its whole result (text and positions) is unchanged when
the document is truncated to two pages — and, for every question number,
every recorded position has a page number at most 2 and every matched
marker region lies on a page at most 2 (so no page-3-or-later region is
ever matched). -/
theorem c2_two_page_limit (pages : List Page) (q : Nat) (imgs : List PurpleImage) :
    extract_text_columns_with_positions pages =
      extract_text_columns_with_positions (pages.take 2)
    ∧ (∀ r, posLookup (extract_text_columns_with_positions pages).2 q = some r →
        r.page ≤ 2)
    ∧ (∀ img, matchRegion q (extract_text_columns_with_positions pages).2 imgs = some img →
        img.page ≤ 2) := by
  have hbound : ∀ r, posLookup (extract_text_columns_with_positions pages).2 q = some r →
      r.page ≤ 2 := by
    intro r h1
    simp only [extract_text_columns_with_positions] at h1
    have hmem := posLookup_mem h1
    rcases tcpLoop_mem hmem with hacc | hb
    · simp at hacc
    · have hlen : (pages.take (min pages.length 2)).length ≤ 2 := by
        rw [List.length_take]; omega
      dsimp only at hb
      omega
  refine ⟨?_, hbound, ?_⟩
  · simp only [extract_text_columns_with_positions]
    have htake : pages.take (min pages.length 2) =
        (pages.take 2).take (min (pages.take 2).length 2) := by
      rw [List.take_take, List.length_take]
      congr 1
      omega
    rw [htake]
  · intro img h2
    unfold matchRegion at h2
    cases hp : posLookup (extract_text_columns_with_positions pages).2 q with
    | none => rw [hp] at h2; exact absurd h2 (by simp)
    | some r =>
      rw [hp] at h2
      simp only at h2
      have hfil := List.of_mem_filter (List.mem_of_find?_eq_some h2)
      rw [decide_eq_true_eq] at hfil
      rw [hfil.1]
      exact hbound r hp

/-- C2, witness: a one-page document with a question word at top 100 and
a matching page-1 region, exercising both inner implications. -/
theorem c2_two_page_limit_witness :
    extract_text_columns_with_positions [cPageC2] =
      extract_text_columns_with_positions ([cPageC2].take 2)
    ∧ (QPos.mk 1 100 Col.right).page ≤ 2 ∧ cImgC2.page ≤ 2 :=
  let h := c2_two_page_limit [cPageC2] 1 [cImgC2]
  ⟨h.1, h.2.1 ⟨1, 100, Col.right⟩ rfl,
    h.2.2 cImgC2 (by
      have hpos : (extract_text_columns_with_positions [cPageC2]).2 =
          [(1, ⟨1, 100, Col.right⟩)] := rfl
      rw [matchRegion.eq_def, hpos]
      simp only [posLookup, List.filter, List.find?, cImgC2]
      norm_num)⟩

/-- C8: for every question number, the position index built by the
extraction pass holds exactly the record of the last matching occurrence
in scan order (pages ascending; within a page all left-column words
before all right-column words): later occurrences overwrite earlier
ones. -/
theorem c8_last_occurrence_wins (pages : List Page) (q : Nat) :
    posLookup (extract_text_columns_with_positions pages).2 q =
      lastPosFor (scanOccurrences pages) q := by
  unfold extract_text_columns_with_positions scanOccurrences
  simp only
  rw [tcpLoop_lookup]
  cases lastPosFor (occLoop 1 (pages.take (min pages.length 2))) q <;> simp [posLookup]

/-- C9: when the chosen split yields an empty (stripped) left or right
text side and the split is not already the exact midpoint, the page is
re-extracted exactly once with the exact midpoint of the page width and
the same `gap = max(4.0, 1% of width)`, and whatever that retry yields is
kept (still-empty sides included; the function is total, no error). -/
theorem c9_midpoint_retry (p : Page)
    (hsplit : pageSplit0 p ≠ p.width / 2)
    (hempty : (stripChars (p.extractText (firstLeftBbox p))).isEmpty = true ∨
              (stripChars (p.extractText (firstRightBbox p))).isEmpty = true) :
    processPage p =
      ⟨p.extractText (retryLeftBbox p), p.extractText (retryRightBbox p),
       p.extractWords (retryLeftBbox p), p.extractWords (retryRightBbox p)⟩ := by
  unfold processPage
  rw [if_pos]
  rcases hempty with h | h <;> simp [h, hsplit]

/-- C9, witness: the fixture page with its ruling at 40 (≠ midpoint 50)
and an empty first-attempt left side. -/
theorem c9_midpoint_retry_witness :
    processPage cPageC9 =
      ⟨cPageC9.extractText (retryLeftBbox cPageC9), cPageC9.extractText (retryRightBbox cPageC9),
       cPageC9.extractWords (retryLeftBbox cPageC9), cPageC9.extractWords (retryRightBbox cPageC9)⟩ :=
  c9_midpoint_retry cPageC9
    (by
      have h : lineCandidates cPageC9 = [40] := by
        norm_num [lineCandidates, cPageC9, List.filterMap_cons, List.filterMap_nil]
      have hs : pageSplit0 cPageC9 = 40 := by
        simp only [pageSplit0]
        rw [h]
        simp [argminMid]
      rw [hs]
      show (40 : ℚ) ≠ 100 / 2
      norm_num)
    (Or.inl (by
      have h : lineCandidates cPageC9 = [40] := by
        norm_num [lineCandidates, cPageC9, List.filterMap_cons, List.filterMap_nil]
      have hs : pageSplit0 cPageC9 = 40 := by
        simp only [pageSplit0]
        rw [h]
        simp [argminMid]
      have hg : pageGap cPageC9 = 4 := by
        simp only [pageGap, cPageC9]
        rw [max_eq_left (by norm_num)]
      simp only [firstLeftBbox, hs, hg]
      have h36 : (max (0 : ℚ) (40 - 4)) = 36 := by rw [max_eq_right] <;> norm_num
      rw [h36]
      simp only [cPageC9]
      rw [if_pos (by norm_num)]
      rfl))

/-- C3, amended: the normalizer is idempotent for every input on which,
during normalization, (a) no hyphen-newline pair survives the
hyphen-joining step (the step can create new pairs, e.g. from `"--\n\n"`)
and (b) the artifact-removal step removes no `ular` token (a removal
leaves doubled whitespace behind). Both conditions are decidable
functions of the input. -/
theorem c3_conditional_idempotence (s : List Char)
    (h1 : containsSeq ['-', '\n'] (remove_hyphen_newline (replace_crlf s)) = false)
    (h2 : remove_ular_aux false (collapse_newlines (collapse_spaces
        (remove_hyphen_newline (replace_crlf s)))) =
      collapse_newlines (collapse_spaces (remove_hyphen_newline (replace_crlf s)))) :
    normalize_keep_lines (normalize_keep_lines s) = normalize_keep_lines s := by
  set x1 := replace_crlf s with hx1
  set x2 := remove_hyphen_newline x1 with hx2
  set x3 := collapse_spaces x2 with hx3
  set x4 := collapse_newlines x3 with hx4
  have hy : normalize_keep_lines s = stripChars x4 := by
    unfold normalize_keep_lines
    rw [← hx1, ← hx2]
    rw [show collapse_spaces x2 = x3 from hx3.symm]
    rw [show collapse_newlines x3 = x4 from hx4.symm]
    rw [h2]
  have hcr4 : '\r' ∉ x4 := by
    intro hmem
    rcases mem_cna hmem with hh | hh
    · simp at hh
    · rcases mem_csa hh with hh | hh
      · simp at hh
      · exact replace_crlf_no_cr s (mem_rh hh)
  have hcr : '\r' ∉ stripChars x4 := fun hmem => hcr4 (mem_strip hmem)
  have hdnx3 : containsSeq ['-', '\n'] x3 = false := csa_nocreate_dn false h1
  have hdn : containsSeq ['-', '\n'] (stripChars x4) = false :=
    containsSeq_strip (cna_nocreate_pair false (by decide) hdnx3)
  have htab4 : '\t' ∉ x4 := by
    intro hmem
    rcases mem_cna hmem with hh | hh
    · simp at hh
    · exact csa_no_tab false x2 hh
  have htab : '\t' ∉ stripChars x4 := fun hmem => htab4 (mem_strip hmem)
  have hsp2 : containsSeq [' ', ' '] (stripChars x4) = false :=
    containsSeq_strip (cna_nocreate_pair false (by decide) (csa_no_sp2 false x2))
  have hnnn : containsSeq ['\n', '\n', '\n'] (stripChars x4) = false :=
    containsSeq_strip (cna_no_nnn false x3)
  have hru : remove_ular_aux false (stripChars x4) = stripChars x4 := ru_strip h2
  rw [hy]
  unfold normalize_keep_lines
  rw [rcr_id hcr, rh_id hdn]
  rw [show collapse_spaces (stripChars x4) = stripChars x4 from
    csa_id false htab hsp2 (by simp)]
  rw [show collapse_newlines (stripChars x4) = stripChars x4 from cna_id hnnn]
  rw [hru]
  exact strip_idem x4

/-- C3, counterexample: the normalizer is not idempotent as claimed.
Removing the whitespace-delimited artifact token `ular` from
`"a ular b"` leaves the doubled space `"a  b"`, which a second
application collapses to `"a b"`; and on `"--\n\n"` the hyphen-newline
removal creates a new hyphen-newline pair that only a second application
removes. -/
theorem c3_not_idempotent_counterexample :
    (normalize_keep_lines (normalize_keep_lines "a ular b".toList) ≠
        normalize_keep_lines "a ular b".toList
      ∧ normalize_keep_lines "a ular b".toList = "a  b".toList)
    ∧ normalize_keep_lines (normalize_keep_lines "--\n\nX".toList) ≠
        normalize_keep_lines "--\n\nX".toList := by
  refine ⟨⟨?_, ?_⟩, ?_⟩
  · decide
  · decide
  · decide

/-- C3, witness: a concrete input exercising CRLF repair, hyphen
joining, space collapsing and newline collapsing, on which both side
conditions hold and normalization is idempotent. -/
theorem c3_conditional_idempotence_witness :
    normalize_keep_lines (normalize_keep_lines "ab-\ncd  e\r\n\r\n\r\nf".toList) =
      normalize_keep_lines "ab-\ncd  e\r\n\r\n\r\nf".toList :=
  c3_conditional_idempotence "ab-\ncd  e\r\n\r\n\r\nf".toList (by decide) (by decide)
